import Mathlib

/-!
Verification development for the nanochat Mamba model (nanochat/mamba.py).

The forward pipeline, weight initialization, loss computation, optimizer
assembly, flops estimate and the autoregressive generation loop are embedded
shallowly: tensors become functions out of `Fin`-index types with real-valued
entries, the sequence-mixing primitive (official `mamba_ssm` mixer or the
dense-linear fallback) is an abstract sequence-to-sequence transform stored in
the model record, and the pseudo-random generator consumed by sampling is an
abstract stream of uniform draws indexed by seed and counter.

Definitions come first, lemmas and theorems follow.
-/

namespace Nanochat

/-- Hyperparameter record, from `MambaConfig` in `nanochat/mamba.py`. -/
structure MambaConfig where
  sequence_len : ℕ := 1024
  vocab_size : ℕ := 50304
  n_layer : ℕ := 12
  n_embd : ℕ := 768
  d_state : ℕ := 16
  d_conv : ℕ := 4
  expand : ℕ := 2

/-- Default epsilon of `F.rms_norm` when none is passed: the float32 machine
epsilon `2^-23` that torch adds inside the square root for stability. -/
noncomputable def rmsEps : ℝ := (2 : ℝ) ^ (-(23 : ℤ))

/-- Denominator of the rms normalization over the last axis:
`sqrt(mean(x^2) + eps)`. -/
noncomputable def rmsDenom {n : ℕ} (x : Fin n → ℝ) : ℝ :=
  Real.sqrt ((∑ j, x j ^ 2) / n + rmsEps)

/-- `norm(x) = F.rms_norm(x, (x.size(-1),))`, the purely functional rmsnorm
with no learnable parameters, applied over the last axis. -/
noncomputable def norm {n : ℕ} (x : Fin n → ℝ) : Fin n → ℝ :=
  fun i => x i / rmsDenom x

/-- `F.silu(x) = x * sigmoid(x)`. -/
noncomputable def silu (x : ℝ) : ℝ := x / (1 + Real.exp (-x))

/-- Shallow embedding of `MambaModel`. Weight tensors are real-valued
functions; the sequence-mixing sub-layer of each block (official mixer or
dense-linear fallback, selected once at construction) is an abstract
batch-shape-polymorphic transform; `mixerNumels` records the element counts of
the parameter tensors owned by one block's mixer (`[n_embd * n_embd]` for the
fallback variant). -/
structure MambaModel (cfg : MambaConfig) where
  wte : Fin cfg.vocab_size → Fin cfg.n_embd → ℝ
  mixer : Fin cfg.n_layer → ∀ B T : ℕ,
    (Fin B → Fin T → Fin cfg.n_embd → ℝ) → Fin B → Fin T → Fin cfg.n_embd → ℝ
  mlp_fc : Fin cfg.n_layer → Fin (4 * cfg.n_embd) → Fin cfg.n_embd → ℝ
  mlp_proj : Fin cfg.n_layer → Fin cfg.n_embd → Fin (4 * cfg.n_embd) → ℝ
  lm_head : Fin cfg.vocab_size → Fin cfg.n_embd → ℝ
  mixerNumels : List ℕ

variable {cfg : MambaConfig}

/-- The block MLP `nn.Sequential(Linear(d, 4d), SiLU(), Linear(4d, d))`
applied at one position. -/
noncomputable def mlpForward (m : MambaModel cfg) (l : Fin cfg.n_layer)
    (v : Fin cfg.n_embd → ℝ) : Fin cfg.n_embd → ℝ :=
  fun e => ∑ j, m.mlp_proj l e j * silu (∑ i, m.mlp_fc l j i * v i)

/-- `MambaBlock.forward`: pre-norm residual mixer then pre-norm residual
MLP. -/
noncomputable def blockForward (m : MambaModel cfg) (l : Fin cfg.n_layer)
    {B T : ℕ} (x : Fin B → Fin T → Fin cfg.n_embd → ℝ) :
    Fin B → Fin T → Fin cfg.n_embd → ℝ :=
  let x1 : Fin B → Fin T → Fin cfg.n_embd → ℝ :=
    fun b t e => x b t e + m.mixer l B T (fun b t => norm (x b t)) b t e
  fun b t e => x1 b t e + mlpForward m l (norm (x1 b t)) e

/-- Sequential pass through the block stack, in layer order. -/
noncomputable def stackForward (m : MambaModel cfg) {B T : ℕ}
    (x : Fin B → Fin T → Fin cfg.n_embd → ℝ) :
    Fin B → Fin T → Fin cfg.n_embd → ℝ :=
  (List.finRange cfg.n_layer).foldl (fun x l => blockForward m l x) x

/-- The logits before the soft cap: embed, normalize, run the block stack,
normalize, project with `lm_head`. -/
noncomputable def preCapLogits (m : MambaModel cfg) {B T : ℕ}
    (idx : Fin B → Fin T → Fin cfg.vocab_size) :
    Fin B → Fin T → Fin cfg.vocab_size → ℝ :=
  let x0 : Fin B → Fin T → Fin cfg.n_embd → ℝ :=
    fun b t => norm (fun e => m.wte (idx b t) e)
  let xs := stackForward m x0
  fun b t v => ∑ e, m.lm_head v e * norm (xs b t) e

/-- The logits soft cap `softcap * torch.tanh(logits / softcap)` with
`softcap = 15`. -/
noncomputable def softcap (x : ℝ) : ℝ := 15 * Real.tanh (x / 15)

/-- `MambaModel.forward` with `targets=None`: the capped logits tensor of
shape `(B, T, vocab_size)`. -/
noncomputable def forward (m : MambaModel cfg) {B T : ℕ}
    (idx : Fin B → Fin T → Fin cfg.vocab_size) :
    Fin B → Fin T → Fin cfg.vocab_size → ℝ :=
  fun b t v => softcap (preCapLogits m idx b t v)

/-- `init_weights`: the generic random initialization is abstracted as the
arbitrary pre-state `m`; then the two targeted zeroings are applied — the
classifier weight `lm_head.weight` is zeroed, and in every block the final
dense map of the MLP is zeroed via the `hasattr(block.mlp, '2')` branch
(the block MLP is an `nn.Sequential`, which exposes its third submodule
under the attribute name `'2'`, so `block.mlp[2].weight` is zeroed). -/
def initWeights (m : MambaModel cfg) : MambaModel cfg :=
  { m with
    lm_head := fun _ _ => 0
    mlp_proj := fun _ _ _ => 0 }

/-! ## Parameters, optimizer assembly, flops estimate -/

/-- One parameter tensor of the model, tagged by the module that owns it.
`mixerWeight l i` is the i-th parameter tensor of block `l`'s mixer
(the fallback variant owns a single `n_embd × n_embd` weight; the official
mixer owns `mN` tensors); the MLP of block `l` owns the two Linear weights
at Sequential indices 0 and 2. -/
inductive Param (cfg : MambaConfig) (mN : ℕ) where
  | wteWeight
  | mixerWeight (l : Fin cfg.n_layer) (i : Fin mN)
  | mlpFcWeight (l : Fin cfg.n_layer)
  | mlpProjWeight (l : Fin cfg.n_layer)
  | lmHeadWeight
deriving DecidableEq

/-- Parameter tensors of one block, in registration order: the mixer's
tensors, then the MLP Linear at index 0, then the MLP Linear at index 2. -/
def blockParams (cfg : MambaConfig) (mN : ℕ) (l : Fin cfg.n_layer) :
    List (Param cfg mN) :=
  (List.finRange mN).map (Param.mixerWeight l) ++
    [Param.mlpFcWeight l, Param.mlpProjWeight l]

/-- `list(self.transformer.h.parameters())`: all block parameters in layer
order. -/
def matrix_params (cfg : MambaConfig) (mN : ℕ) : List (Param cfg mN) :=
  (List.finRange cfg.n_layer).flatMap (blockParams cfg mN)

/-- `list(self.transformer.wte.parameters())`. -/
def embedding_params (cfg : MambaConfig) (mN : ℕ) : List (Param cfg mN) :=
  [Param.wteWeight]

/-- `list(self.lm_head.parameters())`. -/
def lm_head_params (cfg : MambaConfig) (mN : ℕ) : List (Param cfg mN) :=
  [Param.lmHeadWeight]

/-- `list(self.parameters())`: module registration order is the
`transformer` dict (wte then the block list) followed by `lm_head`. -/
def allParams (cfg : MambaConfig) (mN : ℕ) : List (Param cfg mN) :=
  [Param.wteWeight] ++ (List.finRange cfg.n_layer).flatMap (blockParams cfg mN)
    ++ [Param.lmHeadWeight]

/-- Element count of one parameter tensor (`p.numel()`). -/
def paramNumel (m : MambaModel cfg) :
    Param cfg m.mixerNumels.length → ℕ
  | .wteWeight => cfg.vocab_size * cfg.n_embd
  | .mixerWeight _ i => m.mixerNumels.get i
  | .mlpFcWeight _ => 4 * cfg.n_embd * cfg.n_embd
  | .mlpProjWeight _ => cfg.n_embd * (4 * cfg.n_embd)
  | .lmHeadWeight => cfg.vocab_size * cfg.n_embd

/-- `sum(p.numel() for p in self.parameters())`. -/
def nparamsOf (m : MambaModel cfg) : ℕ :=
  ((allParams cfg m.mixerNumels.length).map (paramNumel m)).sum

/-- `self.transformer.wte.weight.numel()`. -/
def nparamsEmbeddingOf (m : MambaModel cfg) : ℕ :=
  cfg.vocab_size * cfg.n_embd

/-- `MambaModel.estimate_flops`: the per-token flop estimate computed by the
source, with Python float division modelled as exact rational division. -/
def estimate_flops (m : MambaModel cfg) : ℚ :=
  let nparams := nparamsOf m
  let nparams_embedding := nparamsEmbeddingOf m
  let l : ℚ := cfg.n_layer
  let d : ℚ := cfg.n_embd
  let t : ℚ := cfg.sequence_len
  let ssm_flops := l * d * cfg.d_state * t * 6
  let mlp_flops := l * d * 4 * d * 2
  (ssm_flops + mlp_flops) / t + 6 * ((nparams : ℚ) - nparams_embedding) / t

/-- Modelled from the claim's words (C2): the same estimate except that the
generic `6 × non_embedding_params` term is NOT divided by `sequence_len`.
Stated only for comparison against `estimate_flops`. -/
def claimedEstimateFlops (m : MambaModel cfg) : ℚ :=
  let nparams := nparamsOf m
  let nparams_embedding := nparamsEmbeddingOf m
  let l : ℚ := cfg.n_layer
  let d : ℚ := cfg.n_embd
  let t : ℚ := cfg.sequence_len
  let ssm_flops := l * d * cfg.d_state * t * 6
  let mlp_flops := l * d * 4 * d * 2
  (ssm_flops + mlp_flops) / t + 6 * ((nparams : ℚ) - nparams_embedding)

/-- A parameter group of a torch optimizer: the parameter list, the current
learning rate, and the `initial_lr` snapshot once it has been written. -/
structure ParamGroup (P : Type) where
  params : List P
  lr : ℝ
  initial_lr : Option ℝ

/-- A torch optimizer, reduced to its parameter groups. -/
structure Optimizer (P : Type) where
  param_groups : List (ParamGroup P)

/-- The `group["initial_lr"] = group["lr"]` loop applied to one optimizer. -/
def snapshotInitialLr {P : Type} (o : Optimizer P) : Optimizer P :=
  ⟨o.param_groups.map fun g => { g with initial_lr := some g.lr }⟩

/-- The model-width learning-rate scale `(model_dim / 768) ** -0.5`. -/
noncomputable def dmodel_lr_scale (cfg : MambaConfig) : ℝ :=
  ((cfg.n_embd : ℝ) / 768) ^ (-(0.5) : ℝ)

/-- `MambaModel.setup_optimizers`: build the three parameter groups, assert
that they account for the full parameter list (`none` models the
`AssertionError` abort), scale the AdamW learning rates by
`dmodel_lr_scale`, construct the AdamW optimizer (lm_head group then
embedding group) and the Muon optimizer (matrix group), then snapshot every
group's `lr` into `initial_lr`. -/
noncomputable def setup_optimizers (m : MambaModel cfg)
    (unembedding_lr embedding_lr matrix_lr weight_decay : ℝ) :
    Option (Optimizer (Param cfg m.mixerNumels.length) ×
      Optimizer (Param cfg m.mixerNumels.length)) :=
  let mN := m.mixerNumels.length
  let matrixPs := matrix_params cfg mN
  let embeddingPs := embedding_params cfg mN
  let lmHeadPs := lm_head_params cfg mN
  if (allParams cfg mN).length =
      matrixPs.length + embeddingPs.length + lmHeadPs.length then
    let scale := dmodel_lr_scale cfg
    let adam_groups : List (ParamGroup (Param cfg mN)) :=
      [⟨lmHeadPs, unembedding_lr * scale, none⟩,
       ⟨embeddingPs, embedding_lr * scale, none⟩]
    let adamw_optimizer : Optimizer (Param cfg mN) := ⟨adam_groups⟩
    let muon_optimizer : Optimizer (Param cfg mN) :=
      ⟨[⟨matrixPs, matrix_lr, none⟩]⟩
    some (snapshotInitialLr adamw_optimizer, snapshotInitialLr muon_optimizer)
  else
    none

/-- A concrete configuration used for counterexamples and witnesses:
`sequence_len = 2, vocab_size = 1, n_layer = 1, n_embd = 1, d_state = 1`. -/
def cexCfg : MambaConfig :=
  { sequence_len := 2, vocab_size := 1, n_layer := 1, n_embd := 1,
    d_state := 1, d_conv := 4, expand := 2 }

/-- A concrete model on `cexCfg`: zero weights, identity mixer, one mixer
parameter tensor of one element per block. -/
noncomputable def cexModel : MambaModel cexCfg where
  wte := fun _ _ => 0
  mixer := fun _ _ _ x => x
  mlp_fc := fun _ _ _ => 0
  mlp_proj := fun _ _ _ => 0
  lm_head := fun _ _ => 0
  mixerNumels := [1]

/-! ## Training-mode loss -/

/-- Reduction mode passed to `F.cross_entropy` (`loss_reduction`). -/
inductive LossReduction where
  | mean
  | sum
deriving DecidableEq

/-- Softmax probability over the vocabulary axis. -/
noncomputable def softmaxProb {n : ℕ} (z : Fin n → ℝ) (i : Fin n) : ℝ :=
  Real.exp (z i) / ∑ j, Real.exp (z j)

/-- `F.cross_entropy(logits, targets, ignore_index=-1, reduction)` on
flattened logits indexed by `ι` (the `view(-1, V)` / `view(-1)` flattening is
the reindexing by `ι = Fin B × Fin T`). A position whose target is the
ignore sentinel `-1` contributes neither loss nor count; `'sum'` adds the
per-position negative log-probabilities, `'mean'` divides their sum by the
number of contributing positions, and the torch mean over zero contributing
positions — `0/0 = NaN` in IEEE arithmetic — is modelled as `none`.
A non-ignored target outside `[0, vocab)` raises in torch and contributes a
junk `0` here; no claim touches that case. -/
noncomputable def cross_entropy {ι : Type} [Fintype ι] {V : ℕ}
    (z : ι → Fin V → ℝ) (targets : ι → ℤ) (reduction : LossReduction) :
    Option ℝ :=
  let contrib := Finset.univ.filter (fun i => targets i ≠ -1)
  let lossAt : ι → ℝ := fun i =>
    if h : 0 ≤ targets i ∧ targets i < V then
      -Real.log (softmaxProb (z i) ⟨(targets i).toNat, by omega⟩)
    else 0
  match reduction with
  | .sum => some (∑ i ∈ contrib, lossAt i)
  | .mean =>
      if contrib.card = 0 then none
      else some ((∑ i ∈ contrib, lossAt i) / contrib.card)

/-- `MambaModel.forward` with `targets` given: cast to full precision
(exact reals here), flatten, and return the cross-entropy loss. -/
noncomputable def forwardLoss (m : MambaModel cfg) {B T : ℕ}
    (idx : Fin B → Fin T → Fin cfg.vocab_size)
    (targets : Fin B → Fin T → ℤ) (reduction : LossReduction) : Option ℝ :=
  cross_entropy (fun p : Fin B × Fin T => forward m idx p.1 p.2)
    (fun p : Fin B × Fin T => targets p.1 p.2) reduction

/-! ## Autoregressive generation -/

open scoped Classical

/-- `torch.topk(logits, min(top_k, logits.size(-1)))[0][..., -1]`: the
`min(k, V)`-th largest logit value, counted with multiplicity — the value at
index `V - min(k, V)` of the ascending sort of the logit multiset. -/
noncomputable def kthLargest {V : ℕ} (l : Fin V → ℝ) (k : ℕ) : ℝ :=
  ((Finset.univ.val.map l).sort (· ≤ ·)).getD (V - min k V) 0

/-- `logits[logits < v[:, [-1]]] = -float(Inf)`: entries strictly below the
`min(k, V)`-th largest value become `-inf`, modelled as `⊥` in
`WithBot ℝ`. -/
noncomputable def topkMask {V : ℕ} (k : ℕ) (l : Fin V → ℝ) :
    Fin V → WithBot ℝ :=
  fun i => if l i < kthLargest l k then ⊥ else (l i : WithBot ℝ)

/-- The logits entering the sampling branch: unchanged when `top_k` is
`None`, masked otherwise. -/
noncomputable def maskedLogits {V : ℕ} (topK : Option ℕ) (l : Fin V → ℝ) :
    Fin V → WithBot ℝ :=
  match topK with
  | none => fun i => (l i : WithBot ℝ)
  | some k => topkMask k l

/-- `exp` of a temperature-scaled possibly `-inf` logit: `exp(-inf) = 0`. -/
noncomputable def expWeight (temperature : ℝ) : WithBot ℝ → ℝ :=
  WithBot.recBotCoe 0 (fun x => Real.exp (x / temperature))

/-- `F.softmax(logits / temperature, dim=-1)` over possibly-masked
logits. -/
noncomputable def probsOf {V : ℕ} (temperature : ℝ)
    (lw : Fin V → WithBot ℝ) (i : Fin V) : ℝ :=
  expWeight temperature (lw i) / ∑ j, expWeight temperature (lw j)

/-- Cumulative weight up to and including index `i`. -/
noncomputable def cumWeight {V : ℕ} (w : Fin V → ℝ) (i : Fin V) : ℝ :=
  ∑ j ∈ Finset.univ.filter (fun j => j ≤ i), w j

/-- `torch.multinomial(probs, num_samples=1, generator=rng)` consuming the
single uniform draw `u ∈ [0, 1)` of the generator: inverse-CDF selection —
the first index whose cumulative weight exceeds `u` times the total weight
(categories of zero weight are never selected, per the torch contract). -/
noncomputable def multinomialPick {V : ℕ} (hV : 0 < V) (w : Fin V → ℝ)
    (u : ℝ) : Fin V :=
  (Fin.find (fun i => u * ∑ j, w j < cumWeight w i)).getD ⟨V - 1, by omega⟩

/-- `torch.argmax(logits, dim=-1)`: the first index attaining the maximal
value (`none` only when the axis is empty). -/
noncomputable def argmaxFirst {V : ℕ} (f : Fin V → WithBot ℝ) :
    Option (Fin V) :=
  Fin.find (fun i => ∀ j, f j ≤ f i)

/-- One step of the generation loop after the last-position logits have been
computed: optional top-k masking, then either temperature sampling through
the generator draw `u`, or greedy argmax. -/
noncomputable def genStep {V : ℕ} (hV : 0 < V) (temperature : ℝ)
    (topK : Option ℕ) (l : Fin V → ℝ) (u : ℝ) : Fin V :=
  let lw := maskedLogits topK l
  if 0 < temperature then
    multinomialPick hV (probsOf temperature lw) u
  else
    (argmaxFirst lw).getD ⟨V - 1, by omega⟩

/-- The logits of the last position of `self.forward(ids)` on the singleton
batch `[ids]` (junk on the empty sequence, on which torch would raise). -/
noncomputable def lastLogits (m : MambaModel cfg)
    (ids : List (Fin cfg.vocab_size)) : Fin cfg.vocab_size → ℝ :=
  if h : ids.length = 0 then fun _ => 0
  else fun v =>
    forward m (B := 1) (T := ids.length) (fun _ t => ids.get t)
      0 ⟨ids.length - 1, by omega⟩ v

/-- The generation loop: each step recomputes the full forward pass on the
sequence so far, samples one id through `genStep` with the next generator
draw, appends it and yields it. `stream c` is the `c`-th uniform draw of the
call's generator. -/
noncomputable def genLoop (m : MambaModel cfg) (hV : 0 < cfg.vocab_size)
    (temperature : ℝ) (topK : Option ℕ) (stream : ℕ → ℝ) :
    List (Fin cfg.vocab_size) → ℕ → ℕ → List (Fin cfg.vocab_size)
  | _, _, 0 => []
  | ids, c, n + 1 =>
      let next := genStep hV temperature topK (lastLogits m ids) (stream c)
      next :: genLoop m hV temperature topK stream (ids ++ [next]) (c + 1) n

/-- `MambaModel.generate(tokens, max_tokens, temperature, top_k, seed)`:
the list of the `max_tokens` yielded ids. `U s c` is the `c`-th uniform
draw of a torch generator seeded with `manual_seed(s)`; the source creates
and seeds the generator once at call start and consults it only on the
`temperature > 0` branch. -/
noncomputable def generate (m : MambaModel cfg) (hV : 0 < cfg.vocab_size)
    (U : ℕ → ℕ → ℝ) (tokens : List (Fin cfg.vocab_size)) (max_tokens : ℕ)
    (temperature : ℝ) (topK : Option ℕ) (seed : ℕ) :
    List (Fin cfg.vocab_size) :=
  genLoop m hV temperature topK (fun c => U seed c) tokens 0 max_tokens

/-- Modelled from the spec's words for the greedy path of §4.4: per step,
take the last-position logits, apply the optional top-k mask, and pick the
argument of the maximal logit, first-occurring index on ties; no generator
is involved. -/
noncomputable def greedyLoop (m : MambaModel cfg) (hV : 0 < cfg.vocab_size)
    (topK : Option ℕ) :
    List (Fin cfg.vocab_size) → ℕ → List (Fin cfg.vocab_size)
  | _, 0 => []
  | ids, n + 1 =>
      let next := (argmaxFirst (maskedLogits topK (lastLogits m ids))).getD
        ⟨cfg.vocab_size - 1, by omega⟩
      next :: greedyLoop m hV topK (ids ++ [next]) n

/-- Modelled from the spec's words: the greedy argmax generation sequence. -/
noncomputable def greedyGenerate (m : MambaModel cfg)
    (hV : 0 < cfg.vocab_size) (tokens : List (Fin cfg.vocab_size))
    (max_tokens : ℕ) (topK : Option ℕ) : List (Fin cfg.vocab_size) :=
  greedyLoop m hV topK tokens max_tokens

/-! ## Lemmas and theorems -/

lemma abs_tanh_le_one (x : ℝ) : |Real.tanh x| ≤ 1 := by
  rw [Real.tanh_eq_sinh_div_cosh, abs_div,
    abs_of_pos (Real.cosh_pos x), div_le_one (Real.cosh_pos x),
    Real.abs_sinh, ← Real.cosh_abs x]
  exact (Real.sinh_lt_cosh _).le

lemma abs_softcap_le (x : ℝ) : |softcap x| ≤ 15 := by
  rw [softcap, abs_mul]
  calc |(15 : ℝ)| * |Real.tanh (x / 15)| ≤ |(15 : ℝ)| * 1 := by
        exact mul_le_mul_of_nonneg_left (abs_tanh_le_one _) (abs_nonneg _)
    _ = 15 := by norm_num

/-- C1: in inference mode (`targets=None`), every entry of the returned
`(B, T, vocab_size)` logits tensor equals `15 * tanh(raw / 15)` of the
pre-cap projection, and hence has absolute value at most 15. -/
theorem forward_softcap_bound (m : MambaModel cfg) {B T : ℕ}
    (idx : Fin B → Fin T → Fin cfg.vocab_size) (b : Fin B) (t : Fin T)
    (v : Fin cfg.vocab_size) :
    forward m idx b t v = softcap (preCapLogits m idx b t v) ∧
      |forward m idx b t v| ≤ 15 :=
  ⟨rfl, abs_softcap_le _⟩

/-- C9: the rms normalization denominator is strictly positive for every
input (no division by zero ever occurs), and normalizing the all-zero vector
returns the all-zero vector. -/
theorem norm_denom_pos_and_zero (n : ℕ) (hn : 0 < n) (x : Fin n → ℝ) :
    0 < rmsDenom x ∧ norm (fun _ : Fin n => (0 : ℝ)) = fun _ => 0 := by
  constructor
  · apply Real.sqrt_pos.mpr
    have h1 : (0 : ℝ) ≤ (∑ j, x j ^ 2) / n := by
      apply div_nonneg (Finset.sum_nonneg fun j _ => sq_nonneg _)
      exact_mod_cast Nat.zero_le n
    have h2 : (0 : ℝ) < rmsEps := by
      rw [rmsEps]; positivity
    linarith
  · funext i
    simp [norm]

/-- Witness for C9 at `n = 2`, `x = (1, 1)`. -/
theorem norm_denom_pos_and_zero_witness :
    0 < rmsDenom (fun _ : Fin 2 => (1 : ℝ)) ∧
      norm (fun _ : Fin 2 => (0 : ℝ)) = fun _ => 0 :=
  norm_denom_pos_and_zero 2 (by norm_num) (fun _ => 1)

/-- C4: immediately after `init_weights()`, the output projection weight is
identically zero, the final dense map of every block MLP is identically zero,
and the inference-mode forward pass returns logits that are uniformly exactly
zero on every input (zero before the cap, and the cap of zero is zero). -/
theorem initWeights_zero_logits (m : MambaModel cfg) {B T : ℕ}
    (idx : Fin B → Fin T → Fin cfg.vocab_size) :
    (∀ v e, (initWeights m).lm_head v e = 0) ∧
      (∀ l e j, (initWeights m).mlp_proj l e j = 0) ∧
      (∀ b t v, preCapLogits (initWeights m) idx b t v = 0) ∧
      (∀ b t v, forward (initWeights m) idx b t v = 0) := by
  have hpre : ∀ b t v, preCapLogits (initWeights m) idx b t v = 0 := by
    intro b t v
    simp [preCapLogits, initWeights]
  refine ⟨fun v e => rfl, fun l e j => rfl, hpre, fun b t v => ?_⟩
  rw [forward, hpre b t v, softcap]
  simp [Real.tanh_zero]

lemma mem_allParams {mN : ℕ} (p : Param cfg mN) : p ∈ allParams cfg mN := by
  cases p with
  | wteWeight => simp [allParams]
  | mixerWeight l i =>
      simp only [allParams, List.mem_append, List.mem_flatMap,
        List.mem_singleton]
      exact Or.inl (Or.inr ⟨l, List.mem_finRange l, by simp [blockParams]⟩)
  | mlpFcWeight l =>
      simp only [allParams, List.mem_append, List.mem_flatMap,
        List.mem_singleton]
      exact Or.inl (Or.inr ⟨l, List.mem_finRange l, by simp [blockParams]⟩)
  | mlpProjWeight l =>
      simp only [allParams, List.mem_append, List.mem_flatMap,
        List.mem_singleton]
      exact Or.inl (Or.inr ⟨l, List.mem_finRange l, by simp [blockParams]⟩)
  | lmHeadWeight => simp [allParams]

lemma nodup_blockParams {mN : ℕ} (l : Fin cfg.n_layer) :
    (blockParams cfg mN l).Nodup := by
  rw [blockParams, List.nodup_append]
  refine ⟨List.Nodup.map ?_ (List.nodup_finRange mN), by simp, ?_⟩
  · intro i j h
    simpa using h
  · intro p hp
    rcases List.mem_map.mp hp with ⟨i, _, rfl⟩
    simp

lemma disjoint_blockParams {mN : ℕ} {l1 l2 : Fin cfg.n_layer} (h : l1 ≠ l2) :
    List.Disjoint (blockParams cfg mN l1) (blockParams cfg mN l2) := by
  intro p hp1 hp2
  rw [blockParams] at hp1 hp2
  rcases List.mem_append.mp hp1 with h1 | h1 <;>
    rcases List.mem_append.mp hp2 with h2 | h2
  · rcases List.mem_map.mp h1 with ⟨i, _, rfl⟩
    rcases List.mem_map.mp h2 with ⟨j, _, hij⟩
    injection hij with hl hi
    exact h hl.symm
  · rcases List.mem_map.mp h1 with ⟨i, _, rfl⟩
    simp at h2
  · rcases List.mem_map.mp h2 with ⟨i, _, rfl⟩
    simp at h1
  · simp only [List.mem_cons, List.not_mem_nil, or_false] at h1 h2
    rcases h1 with rfl | rfl <;> rcases h2 with h2 | h2 <;>
      first
        | (injection h2 with hl; exact h hl)
        | exact Param.noConfusion h2

lemma nodup_allParams (cfg : MambaConfig) (mN : ℕ) :
    (allParams cfg mN).Nodup := by
  rw [allParams, List.append_assoc, List.nodup_append]
  refine ⟨by simp, ?_, ?_⟩
  · rw [List.nodup_append]
    refine ⟨?_, by simp, ?_⟩
    · rw [List.nodup_flatMap]
      refine ⟨fun l _ => nodup_blockParams l, ?_⟩
      exact (List.nodup_finRange _).imp fun h => disjoint_blockParams h
    · intro p hp
      rcases List.mem_flatMap.mp hp with ⟨l, _, hpl⟩
      rw [blockParams] at hpl
      rcases List.mem_append.mp hpl with h1 | h1
      · rcases List.mem_map.mp h1 with ⟨i, _, rfl⟩
        simp
      · simp only [List.mem_cons, List.not_mem_nil, or_false] at h1
        rcases h1 with rfl | rfl <;> simp
  · intro p hp
    rcases List.mem_singleton.mp hp with rfl
    simp only [List.mem_append, List.mem_flatMap, List.mem_singleton]
    rintro (⟨l, _, hpl⟩ | h)
    · rw [blockParams] at hpl
      rcases List.mem_append.mp hpl with h1 | h1
      · rcases List.mem_map.mp h1 with ⟨i, _, h⟩
        exact Param.noConfusion h
      · simp only [List.mem_cons, List.not_mem_nil, or_false] at h1
        rcases h1 with h1 | h1 <;> exact Param.noConfusion h1
    · exact Param.noConfusion h

lemma groups_perm_allParams (cfg : MambaConfig) (mN : ℕ) :
    (matrix_params cfg mN ++ embedding_params cfg mN ++
      lm_head_params cfg mN).Perm (allParams cfg mN) := by
  rw [matrix_params, embedding_params, lm_head_params, allParams]
  exact (List.perm_append_comm).append_right _

lemma assert_lengths (cfg : MambaConfig) (mN : ℕ) :
    (allParams cfg mN).length = (matrix_params cfg mN).length +
      (embedding_params cfg mN).length + (lm_head_params cfg mN).length := by
  have h := (groups_perm_allParams cfg mN).length_eq
  simp only [List.length_append] at h
  omega

lemma setup_optimizers_eq (m : MambaModel cfg)
    (unembedding_lr embedding_lr matrix_lr weight_decay : ℝ) :
    setup_optimizers m unembedding_lr embedding_lr matrix_lr weight_decay =
      some
        (⟨[⟨lm_head_params cfg m.mixerNumels.length,
            unembedding_lr * dmodel_lr_scale cfg,
            some (unembedding_lr * dmodel_lr_scale cfg)⟩,
           ⟨embedding_params cfg m.mixerNumels.length,
            embedding_lr * dmodel_lr_scale cfg,
            some (embedding_lr * dmodel_lr_scale cfg)⟩]⟩,
         ⟨[⟨matrix_params cfg m.mixerNumels.length, matrix_lr,
            some matrix_lr⟩]⟩) := by
  rw [setup_optimizers]
  simp only [assert_lengths cfg m.mixerNumels.length, if_true]
  simp [snapshotInitialLr]

/-- C3: the three parameter groups built by `setup_optimizers` partition the
full parameter list exactly — their concatenation is a permutation of
`list(self.parameters())` and every parameter tensor occurs exactly once in
it — the asserted length identity holds, and hence assembly never aborts
(`isSome`, no `AssertionError`). -/
theorem setup_optimizers_partition (m : MambaModel cfg)
    (unembedding_lr embedding_lr matrix_lr weight_decay : ℝ) :
    (matrix_params cfg m.mixerNumels.length ++
        embedding_params cfg m.mixerNumels.length ++
        lm_head_params cfg m.mixerNumels.length).Perm
      (allParams cfg m.mixerNumels.length) ∧
    (∀ p : Param cfg m.mixerNumels.length,
      (matrix_params cfg m.mixerNumels.length ++
        embedding_params cfg m.mixerNumels.length ++
        lm_head_params cfg m.mixerNumels.length).count p = 1) ∧
    (allParams cfg m.mixerNumels.length).length =
      (matrix_params cfg m.mixerNumels.length).length +
      (embedding_params cfg m.mixerNumels.length).length +
      (lm_head_params cfg m.mixerNumels.length).length ∧
    (setup_optimizers m unembedding_lr embedding_lr matrix_lr
      weight_decay).isSome := by
  refine ⟨groups_perm_allParams cfg _, fun p => ?_, assert_lengths cfg _, ?_⟩
  · rw [(groups_perm_allParams cfg _).count_eq]
    exact List.count_eq_one_of_mem (nodup_allParams cfg _) (mem_allParams p)
  · rw [setup_optimizers_eq]
    rfl

/-- C8: the AdamW optimizer returned first carries exactly two groups with
learning rates `unembedding_lr * s` (lm_head) and `embedding_lr * s`
(embedding) where `s = (n_embd/768) ** -0.5`; the Muon optimizer returned
second carries the matrix group at the unscaled `matrix_lr`; and on return
every parameter group of both optimizers has `initial_lr` equal to its
`lr`. -/
theorem setup_optimizers_learning_rates (m : MambaModel cfg)
    (unembedding_lr embedding_lr matrix_lr weight_decay : ℝ) :
    ((setup_optimizers m unembedding_lr embedding_lr matrix_lr
        weight_decay).map fun pr =>
          pr.1.param_groups.map ParamGroup.lr) =
      some [unembedding_lr * dmodel_lr_scale cfg,
        embedding_lr * dmodel_lr_scale cfg] ∧
    ((setup_optimizers m unembedding_lr embedding_lr matrix_lr
        weight_decay).map fun pr =>
          pr.1.param_groups.map ParamGroup.params) =
      some [lm_head_params cfg m.mixerNumels.length,
        embedding_params cfg m.mixerNumels.length] ∧
    ((setup_optimizers m unembedding_lr embedding_lr matrix_lr
        weight_decay).map fun pr =>
          pr.2.param_groups.map ParamGroup.lr) = some [matrix_lr] ∧
    ((setup_optimizers m unembedding_lr embedding_lr matrix_lr
        weight_decay).map fun pr =>
          pr.2.param_groups.map ParamGroup.params) =
      some [matrix_params cfg m.mixerNumels.length] ∧
    (∀ pr ∈ setup_optimizers m unembedding_lr embedding_lr matrix_lr
        weight_decay,
      ∀ g ∈ pr.1.param_groups ++ pr.2.param_groups,
        g.initial_lr = some g.lr) := by
  rw [setup_optimizers_eq]
  refine ⟨rfl, rfl, rfl, rfl, ?_⟩
  intro pr hpr g hg
  rcases Option.mem_some_iff.mp hpr with rfl
  simp only [List.mem_append, List.mem_cons, List.not_mem_nil,
    or_false] at hg
  rcases hg with (rfl | rfl) | rfl <;> rfl

lemma blockParams_numel_sum (m : MambaModel cfg) (l : Fin cfg.n_layer) :
    ((blockParams cfg m.mixerNumels.length l).map (paramNumel m)).sum =
      m.mixerNumels.sum + (4 * cfg.n_embd * cfg.n_embd +
        cfg.n_embd * (4 * cfg.n_embd)) := by
  rw [blockParams, List.map_append, List.sum_append, List.map_map]
  have h1 : (List.finRange m.mixerNumels.length).map
      (paramNumel m ∘ Param.mixerWeight l) =
      (List.finRange m.mixerNumels.length).map m.mixerNumels.get := rfl
  rw [h1, ← List.ofFn_eq_map, List.ofFn_get]
  simp [paramNumel]

lemma nparamsOf_eq (m : MambaModel cfg) :
    nparamsOf m = cfg.vocab_size * cfg.n_embd +
      cfg.n_layer * (m.mixerNumels.sum + 8 * cfg.n_embd * cfg.n_embd) +
      cfg.vocab_size * cfg.n_embd := by
  rw [nparamsOf, allParams, List.map_append, List.map_append,
    List.sum_append, List.sum_append]
  have hmid : (((List.finRange cfg.n_layer).flatMap
      (blockParams cfg m.mixerNumels.length)).map (paramNumel m)).sum =
      cfg.n_layer * (m.mixerNumels.sum + 8 * cfg.n_embd * cfg.n_embd) := by
    rw [List.map_flatMap, List.flatMap, List.sum_flatten, List.map_map]
    have h : (List.finRange cfg.n_layer).map
        (List.sum ∘ fun a => (blockParams cfg m.mixerNumels.length a).map
          (paramNumel m)) =
        (List.finRange cfg.n_layer).map (fun _ =>
          m.mixerNumels.sum + (4 * cfg.n_embd * cfg.n_embd +
            cfg.n_embd * (4 * cfg.n_embd))) := by
      apply List.map_congr_left
      intro l _
      exact blockParams_numel_sum m l
    rw [h, List.map_const', List.sum_replicate, List.length_finRange,
      smul_eq_mul]
    ring
  rw [hmid]
  simp [paramNumel]

/-- C2 (amended): `estimate_flops` equals the closed form in which BOTH the
mixing/feed-forward term and the generic `6 × non_embedding_params` term are
divided by `sequence_len` (the source divides the whole expression by `t`). -/
theorem estimate_flops_closed_form (m : MambaModel cfg) :
    estimate_flops m =
      ((cfg.n_layer * cfg.n_embd * cfg.d_state * cfg.sequence_len * 6 +
        cfg.n_layer * cfg.n_embd * 4 * cfg.n_embd * 2 : ℕ) : ℚ) /
          cfg.sequence_len +
        6 * ((cfg.n_layer * (m.mixerNumels.sum +
          8 * cfg.n_embd * cfg.n_embd) +
          cfg.vocab_size * cfg.n_embd : ℕ) : ℚ) / cfg.sequence_len := by
  rw [estimate_flops, nparamsOf_eq, nparamsEmbeddingOf]
  push_cast
  ring

/-- Counterexample to C2 as stated: on `cexModel` the source's estimate is
40 while the claimed closed form (whose `6 × non_embedding_params` term is
not divided by `sequence_len`) is 70. -/
theorem estimate_flops_ne_claimed :
    estimate_flops cexModel ≠ claimedEstimateFlops cexModel := by
  have h1 : estimate_flops cexModel = 40 := by
    rw [estimate_flops_closed_form]
    norm_num [cexCfg, cexModel]
  have h2 : claimedEstimateFlops cexModel = 70 := by
    rw [claimedEstimateFlops, nparamsOf_eq, nparamsEmbeddingOf]
    norm_num [cexCfg, cexModel]
  rw [h1, h2]
  norm_num

lemma forwardLoss_all_ignored_aux (m : MambaModel cfg) {B T : ℕ}
    (idx : Fin B → Fin T → Fin cfg.vocab_size)
    (targets : Fin B → Fin T → ℤ) (h : ∀ b t, targets b t = -1) :
    forwardLoss m idx targets LossReduction.mean = none := by
  rw [forwardLoss, cross_entropy]
  have hcard : (Finset.univ.filter
      (fun p : Fin B × Fin T => (fun p : Fin B × Fin T =>
        targets p.1 p.2) p ≠ -1)).card = 0 := by
    rw [Finset.card_eq_zero, Finset.filter_eq_empty_iff]
    intro p _
    simp [h p.1 p.2]
  simp only [hcard, if_true]

/-- C5 (amended): when every target is the ignore sentinel `-1`, training
mode with `'mean'` reduction divides a zero loss sum by a zero count and
returns NaN (`none` in this model), not `0`. -/
theorem forwardLoss_all_ignored (m : MambaModel cfg) {B T : ℕ}
    (idx : Fin B → Fin T → Fin cfg.vocab_size)
    (targets : Fin B → Fin T → ℤ) (h : ∀ b t, targets b t = -1) :
    forwardLoss m idx targets LossReduction.mean = none :=
  forwardLoss_all_ignored_aux m idx targets h

/-- Witness for C5's amended theorem on the concrete model. -/
theorem forwardLoss_all_ignored_witness :
    forwardLoss cexModel (B := 1) (T := 1) (fun _ _ => ⟨0, by norm_num [cexCfg]⟩)
      (fun _ _ => -1) LossReduction.mean = none :=
  forwardLoss_all_ignored cexModel _ _ (fun _ _ => rfl)

/-- Counterexample to C5 as stated: on the concrete model, a batch whose
every target is `-1` makes training-mode mean-reduced forward return NaN
(`none`), not the claimed exact `0`. -/
theorem forwardLoss_all_ignored_not_zero :
    forwardLoss cexModel (B := 1) (T := 1) (fun _ _ => ⟨0, by norm_num [cexCfg]⟩)
      (fun _ _ => -1) LossReduction.mean ≠ some 0 := by
  rw [forwardLoss_all_ignored_aux cexModel _ _ (fun _ _ => rfl)]
  exact Option.noConfusion

lemma cexVpos : 0 < cexCfg.vocab_size := by norm_num [cexCfg]

lemma genLoop_zero_temp (m : MambaModel cfg) (hV : 0 < cfg.vocab_size)
    (topK : Option ℕ) (stream : ℕ → ℝ) :
    ∀ (n : ℕ) (ids : List (Fin cfg.vocab_size)) (c : ℕ),
      genLoop m hV 0 topK stream ids c n = greedyLoop m hV topK ids n := by
  intro n
  induction n with
  | zero => intro ids c; rfl
  | succ n ih =>
      intro ids c
      rw [genLoop, greedyLoop]
      have hstep : genStep hV 0 topK (lastLogits m ids) (stream c) =
          (argmaxFirst (maskedLogits topK (lastLogits m ids))).getD
            ⟨cfg.vocab_size - 1, by omega⟩ := by
        rw [genStep, if_neg (lt_irrefl 0)]
      rw [hstep, ih]

lemma genLoop_nonpos_temp (m : MambaModel cfg) (hV : 0 < cfg.vocab_size)
    (temperature : ℝ) (h : temperature ≤ 0) (topK : Option ℕ)
    (s1 s2 : ℕ → ℝ) :
    ∀ (n : ℕ) (ids : List (Fin cfg.vocab_size)) (c1 c2 : ℕ),
      genLoop m hV temperature topK s1 ids c1 n =
        genLoop m hV temperature topK s2 ids c2 n := by
  intro n
  induction n with
  | zero => intro ids c1 c2; rfl
  | succ n ih =>
      intro ids c1 c2
      rw [genLoop, genLoop]
      have hstep : ∀ u1 u2 : ℝ,
          genStep hV temperature topK (lastLogits m ids) u1 =
            genStep hV temperature topK (lastLogits m ids) u2 := by
        intro u1 u2
        rw [genStep, genStep, if_neg (not_lt.mpr h), if_neg (not_lt.mpr h)]
      rw [hstep (s1 c1) (s2 c2), ih]

/-- C6: generation is a deterministic function of its arguments — with
`temperature = 0` the output is the greedy argmax sequence (for any ambient
randomness `U`), and since the generator is seeded once from `seed` at call
start, any two calls whose uniform streams agree on that seed produce
identical output sequences. -/
theorem generate_deterministic (m : MambaModel cfg)
    (hV : 0 < cfg.vocab_size) (tokens : List (Fin cfg.vocab_size))
    (max_tokens : ℕ) (topK : Option ℕ) (seed : ℕ) :
    (∀ U : ℕ → ℕ → ℝ, generate m hV U tokens max_tokens 0 topK seed =
      greedyGenerate m hV tokens max_tokens topK) ∧
    (∀ (temperature : ℝ) (U1 U2 : ℕ → ℕ → ℝ),
      (∀ c, U1 seed c = U2 seed c) →
      generate m hV U1 tokens max_tokens temperature topK seed =
        generate m hV U2 tokens max_tokens temperature topK seed) := by
  constructor
  · intro U
    exact genLoop_zero_temp m hV topK _ max_tokens tokens 0
  · intro temperature U1 U2 h
    rw [generate, generate]
    have hs : (fun c => U1 seed c) = fun c => U2 seed c := funext h
    rw [hs]

/-- Witness for C6 on the concrete model: the greedy identity at
`temperature = 0` and stream-reproducibility at `temperature = 1/2`. -/
theorem generate_deterministic_witness :
    (generate cexModel cexVpos (fun _ _ => 0) [] 2 0 none 42 =
      greedyGenerate cexModel cexVpos [] 2 none) ∧
    (generate cexModel cexVpos (fun _ _ => 0) [] 2 (1/2) none 42 =
      generate cexModel cexVpos (fun _ _ => 0) [] 2 (1/2) none 42) :=
  ⟨(generate_deterministic cexModel cexVpos [] 2 none 42).1 _,
   (generate_deterministic cexModel cexVpos [] 2 none 42).2 (1/2) _ _
     (fun _ => rfl)⟩

/-- C10: whenever `temperature ≤ 0`, the generator is never consulted, so
the output of `generate` does not depend on `seed`: two calls differing only
in the seed produce identical sequences. -/
theorem generate_seed_independent_nonpos_temp (m : MambaModel cfg)
    (hV : 0 < cfg.vocab_size) (U : ℕ → ℕ → ℝ)
    (tokens : List (Fin cfg.vocab_size)) (max_tokens : ℕ)
    (temperature : ℝ) (topK : Option ℕ) (h : temperature ≤ 0)
    (s1 s2 : ℕ) :
    generate m hV U tokens max_tokens temperature topK s1 =
      generate m hV U tokens max_tokens temperature topK s2 := by
  rw [generate, generate]
  exact genLoop_nonpos_temp m hV temperature h topK _ _ max_tokens tokens 0 0

/-- Witness for C10 on the concrete model with seeds 1 and 2. -/
theorem generate_seed_independent_witness :
    generate cexModel cexVpos (fun _ _ => 0) [] 1 0 none 1 =
      generate cexModel cexVpos (fun _ _ => 0) [] 1 0 none 2 :=
  generate_seed_independent_nonpos_temp cexModel cexVpos _ [] 1 0 none
    (le_refl 0) 1 2

lemma expWeight_bot (temperature : ℝ) : expWeight temperature ⊥ = 0 := rfl

lemma expWeight_coe (temperature x : ℝ) :
    expWeight temperature (x : WithBot ℝ) = Real.exp (x / temperature) := rfl

lemma expWeight_nonneg (temperature : ℝ) (w : WithBot ℝ) :
    0 ≤ expWeight temperature w := by
  induction w using WithBot.recBotCoe with
  | bot => exact le_refl 0
  | coe x => exact (Real.exp_pos _).le

lemma kthLargest_exists_ge {V k : ℕ} (hV : 0 < V) (hk : 1 ≤ k)
    (l : Fin V → ℝ) : ∃ j, kthLargest l k ≤ l j := by
  have hlen : ((Finset.univ.val.map l).sort (· ≤ ·)).length = V := by
    rw [Multiset.length_sort, Multiset.card_map]
    simp
  have hidx : V - min k V < ((Finset.univ.val.map l).sort (· ≤ ·)).length := by
    rw [hlen]; omega
  have hmem : kthLargest l k ∈ (Finset.univ.val.map l).sort (· ≤ ·) := by
    rw [kthLargest, List.getD_eq_get _ _ hidx]
    exact List.get_mem _ _ hidx
  rw [Multiset.mem_sort] at hmem
  rcases Multiset.mem_map.mp hmem with ⟨j, _, hj⟩
  exact ⟨j, le_of_eq hj.symm⟩

lemma sum_expWeight_topk_pos {V k : ℕ} (hV : 0 < V) (hk : 1 ≤ k)
    (temperature : ℝ) (l : Fin V → ℝ) :
    0 < ∑ j, expWeight temperature (topkMask k l j) := by
  obtain ⟨j, hj⟩ := kthLargest_exists_ge hV hk l
  apply Finset.sum_pos'
  · intro i _
    exact expWeight_nonneg _ _
  · refine ⟨j, Finset.mem_univ j, ?_⟩
    rw [topkMask, if_neg (not_lt.mpr hj), expWeight_coe]
    exact Real.exp_pos _

set_option maxHeartbeats 1000000 in
lemma multinomialPick_ne_of_zero {V : ℕ} (hV : 0 < V) (w : Fin V → ℝ)
    (u : ℝ) (hw : ∀ j, 0 ≤ w j) (hu0 : 0 ≤ u) (hu1 : u < 1)
    (hS : 0 < ∑ j, w j) (i : Fin V) (hi : w i = 0) :
    multinomialPick hV w u ≠ i := by
  have hlastp : u * ∑ j', w j' < cumWeight w ⟨V - 1, by omega⟩ := by
    have hcum : cumWeight w ⟨V - 1, by omega⟩ = ∑ j', w j' := by
      rw [cumWeight]
      congr 1
      apply Finset.filter_true_of_mem
      intro j _
      rw [Fin.le_def]
      have := j.2
      simp only
      omega
    rw [hcum]
    exact mul_lt_of_lt_one_left hS hu1
  intro heq
  cases hfind : Fin.find (fun i => u * ∑ j', w j' < cumWeight w i) with
  | none => exact (Fin.find_eq_none_iff.mp hfind _) hlastp
  | some j =>
      have hj_mem : j ∈ Fin.find (fun i => u * ∑ j', w j' < cumWeight w i) :=
        Option.mem_def.mpr hfind
      have hji : j = i := by
        rw [multinomialPick, hfind, Option.getD_some] at heq
        exact heq
      subst hji
      have hpj : u * ∑ j', w j' < cumWeight w j := Fin.find_spec _ hj_mem
      by_cases h0 : (j : ℕ) = 0
      · have hc0 : cumWeight w j = 0 := by
          rw [cumWeight]
          have hsingle : Finset.univ.filter (fun j' => j' ≤ j) = {j} := by
            ext j'
            simp only [Finset.mem_filter, Finset.mem_univ, true_and,
              Finset.mem_singleton, Fin.le_def, Fin.ext_iff]
            omega
          rw [hsingle, Finset.sum_singleton, hi]
        rw [hc0] at hpj
        nlinarith [mul_nonneg hu0 hS.le]
      · have hip : (⟨(j : ℕ) - 1, by omega⟩ : Fin V) < j := by
          rw [Fin.lt_def]
          simp only
          omega
        have hcum_eq : cumWeight w ⟨(j : ℕ) - 1, by omega⟩ = cumWeight w j := by
          rw [cumWeight, cumWeight]
          have hset : Finset.univ.filter (fun j' => j' ≤ j) =
              insert j (Finset.univ.filter
                (fun j' => j' ≤ (⟨(j : ℕ) - 1, by omega⟩ : Fin V))) := by
            ext j'
            simp only [Finset.mem_filter, Finset.mem_univ, true_and,
              Finset.mem_insert, Fin.le_def, Fin.ext_iff]
            omega
          rw [hset, Finset.sum_insert (by
            simp only [Finset.mem_filter, Finset.mem_univ, true_and,
              Fin.le_def]
            omega), hi, zero_add]
        exact Fin.find_min hj_mem hip (hcum_eq ▸ hpj)

/-- C7: with `top_k` set, the effective k is `min(top_k, vocab_size)` (a
`top_k` beyond the vocabulary behaves exactly like `vocab_size`, no
failure); a logit is replaced by `-inf` exactly when it is strictly below
the k-th largest value; such masked positions receive softmax probability
zero; and the multinomial draw never returns a masked position. -/
theorem topk_clamp_mask_never_sampled {V : ℕ} (hV : 0 < V) (k : ℕ)
    (hk : 1 ≤ k) (l : Fin V → ℝ) (temperature u : ℝ) (ht : 0 < temperature)
    (hu0 : 0 ≤ u) (hu1 : u < 1) :
    genStep hV temperature (some k) l u =
      genStep hV temperature (some (min k V)) l u ∧
    (∀ i, l i < kthLargest l k ↔ topkMask k l i = ⊥) ∧
    (∀ i, topkMask k l i = ⊥ →
      probsOf temperature (topkMask k l) i = 0) ∧
    (∀ i, topkMask k l i = ⊥ →
      genStep hV temperature (some k) l u ≠ i) := by
  have hmask : topkMask (V := V) (min k V) l = topkMask k l := by
    funext i
    rw [topkMask, topkMask, kthLargest, kthLargest]
    have hmin : min (min k V) V = min k V := by omega
    rw [hmin]
  have hprob0 : ∀ i, topkMask k l i = ⊥ →
      probsOf temperature (topkMask k l) i = 0 := by
    intro i h
    rw [probsOf, h, expWeight_bot, zero_div]
  refine ⟨?_, ?_, hprob0, ?_⟩
  · simp only [genStep, maskedLogits]
    rw [hmask]
  · intro i
    constructor
    · intro h
      rw [topkMask, if_pos h]
    · intro h
      by_contra hlt
      rw [topkMask, if_neg hlt] at h
      exact WithBot.coe_ne_bot h
  · intro i hmaski
    simp only [genStep, maskedLogits]
    rw [if_pos ht]
    have hE := sum_expWeight_topk_pos hV hk temperature l
    apply multinomialPick_ne_of_zero hV _ u ?_ hu0 hu1 ?_ i ?_
    · intro j
      exact div_nonneg (expWeight_nonneg _ _)
        (Finset.sum_nonneg fun j' _ => expWeight_nonneg _ _)
    · have hsum : ∑ j, probsOf temperature (topkMask k l) j = 1 := by
        simp only [probsOf]
        rw [← Finset.sum_div, div_self (ne_of_gt hE)]
      rw [hsum]
      norm_num
    · exact hprob0 i hmaski

lemma vpos2 : 0 < 2 := by norm_num

/-- Witness for C7 at `V = 2`, `top_k = 5 > V`, zero logits,
`temperature = 1`, `u = 1/2`. -/
theorem topk_clamp_mask_never_sampled_witness :
    (genStep vpos2 1 (some 5) (fun _ : Fin 2 => (0 : ℝ)) (1/2) =
      genStep vpos2 1 (some (min 5 2)) (fun _ : Fin 2 => (0 : ℝ)) (1/2)) ∧
    (∀ i, (fun _ : Fin 2 => (0 : ℝ)) i <
        kthLargest (fun _ : Fin 2 => (0 : ℝ)) 5 ↔
      topkMask 5 (fun _ : Fin 2 => (0 : ℝ)) i = ⊥) ∧
    (∀ i, topkMask 5 (fun _ : Fin 2 => (0 : ℝ)) i = ⊥ →
      probsOf 1 (topkMask 5 (fun _ : Fin 2 => (0 : ℝ))) i = 0) ∧
    (∀ i, topkMask 5 (fun _ : Fin 2 => (0 : ℝ)) i = ⊥ →
      genStep vpos2 1 (some 5) (fun _ : Fin 2 => (0 : ℝ)) (1/2) ≠ i) :=
  topk_clamp_mask_never_sampled vpos2 5 (by norm_num)
    (fun _ : Fin 2 => (0 : ℝ)) 1 (1/2) (by norm_num) (by norm_num)
    (by norm_num)

end Nanochat
